import Mathlib

/-!
Verification of the batch-fetch engine of `wafflescrapers.py`
(`ProxyPool`, `TokenBucket`, `AsynchronousScraper`) against its
natural-language specification.

The Python code is shallowly embedded:

* random draws (`scipy.stats.randint(...).rvs`, `scipy.stats.poisson(mu).rvs`)
  become explicit parameters ranging over the support of the distribution;
* wall-clock readings (`time.monotonic()`) become explicit rational inputs;
* the cooperative `async` loop of `wait_for_token` is driven by a finite
  trace of refill events, one per failed availability check; a call that
  would still be suspended at the end of the trace is `none`;
* the network outcome of a request is an oracle `pass ↦ index ↦ Option payload`
  (`none` models an exception captured by `asyncio.gather(return_exceptions=True)`).
-/

namespace Waffle

/-! ### ProxyPool (`wafflescrapers.py` lines 14-51) -/

/-- Python `str.split(sep)` for a one-character separator, on the character
list of the string: `''.split(c) = ['']`, and separators at the ends produce
empty fields, exactly as in Python. -/
def splitCh (c : Char) : List Char → List (List Char)
  | [] => [[]]
  | x :: xs =>
    let r := splitCh c xs
    if x = c then [] :: r
    else
      match r with
      | h :: t => (x :: h) :: t
      | [] => [[x]]

/-- The proxy-record rewrite of `ProxyPool.__init__` (line 21):
`'http://' + ':'.join(x.split(':')[2:]) + '@' + ':'.join(x.split(':')[:2])`. -/
def proxyURL (x : List Char) : List Char :=
  let parts := splitCh ':' x
  "http://".toList ++ List.intercalate [':'] (parts.drop 2)
    ++ "@".toList ++ List.intercalate [':'] (parts.take 2)

/-- The dictionary `{'http': x, 'https': x}` built on line 22. -/
structure Proxy where
  http : List Char
  https : List Char
deriving DecidableEq

structure ProxyPool where
  proxyList : List Proxy
  numProxies : ℕ
deriving DecidableEq

/-- `ProxyPool.__init__` (lines 16-26), after `np.loadtxt` has produced the
list of raw records.  The constructor only rewrites each record into a proxy
dictionary and stores the count; it raises nothing and defines no error
class (the repository contains no `ConfigError`).  `self.random_index` is a
sampler for `randint(0, num_proxies)`; its draw is the explicit argument of
`randomProxy` below. -/
def ProxyPool.init (records : List (List Char)) : ProxyPool :=
  let proxyList := (records.map proxyURL).map (fun u => { http := u, https := u : Proxy })
  { proxyList := proxyList, numProxies := proxyList.length }

/-- `ProxyPool.random_proxy` (lines 44-51): `self.proxy_list[self.random_index()]`.
`k` is the value drawn by `self.random_index()`; list indexing is partial,
out-of-range access is `none`. -/
def randomProxy (pool : ProxyPool) (k : ℕ) : Option Proxy :=
  pool.proxyList[k]?

/-! ### TokenBucket (`wafflescrapers.py` lines 55-117) -/

/-- The mutable state of `TokenBucket` (lines 63-77), without the wrapped
aiohttp client (pure I/O, carries no rate-limiting state).  The level is
modelled as a rational number; the Python code starts it at `max_tokens`,
adds integer Poisson draws and subtracts `1` per admission. -/
structure TokenBucket where
  tokens : ℚ
  maxTokens : ℚ
  rate : ℚ
  lastUpdate : ℚ
  backoff : ℚ
deriving DecidableEq

/-- `TokenBucket.__init__`: level starts at `max_tokens`, `last_update`
starts at the current clock reading `now`. -/
def TokenBucket.init (maxTokens rate backoff now : ℚ) : TokenBucket :=
  { tokens := maxTokens, maxTokens := maxTokens, rate := rate
    lastUpdate := now, backoff := backoff }

/-- The Poisson mean `mu = time_elapsed * self.rate` computed by
`mint_tokens` (lines 110-112) for a refill at clock reading `now`. -/
def poissonMean (b : TokenBucket) (now : ℚ) : ℚ :=
  (now - b.lastUpdate) * b.rate

/-- `TokenBucket.mint_tokens` (lines 105-117).  `now` is the reading of
`time.monotonic()` and `draw` the value of `stats.poisson(mu).rvs()` with
`mu = poissonMean b now`; the new level is `np.min([tokens + draw, max_tokens])`
and `last_update` advances to `now`. -/
def mintTokens (b : TokenBucket) (now : ℚ) (draw : ℕ) : TokenBucket :=
  { b with tokens := min (b.tokens + (draw : ℚ)) b.maxTokens, lastUpdate := now }

/-- `TokenBucket.wait_for_token` (lines 93-103).  Each event `(now, draw)` of
the trace feeds one iteration of `while self.tokens < 1`: a failed check
mints with that event and suspends for `backoff` before re-checking.  An
empty remaining trace with the check still failing means the caller is still
suspended: `none`.  When the check passes, the level is debited by one and
the caller is admitted. -/
def waitForToken (b : TokenBucket) : List (ℚ × ℕ) → Option TokenBucket
  | [] =>
    if b.tokens < 1 then none
    else some { b with tokens := b.tokens - 1 }
  | e :: rest =>
    if b.tokens < 1 then waitForToken (mintTokens b e.1 e.2) rest
    else some { b with tokens := b.tokens - 1 }

/-- The bucket state after the refills of the given events have run in order. -/
def refillAll (b : TokenBucket) (evs : List (ℚ × ℕ)) : TokenBucket :=
  evs.foldl (fun s e => mintTokens s e.1 e.2) b

/-- One mutation of the shared bucket, as serialized by the single-threaded
event loop: either one refill (performed inside some caller's failed check)
or one complete admitted `wait_for_token` call. -/
inductive BucketStep : TokenBucket → TokenBucket → Prop
  | mint (b : TokenBucket) (now : ℚ) (draw : ℕ) : BucketStep b (mintTokens b now draw)
  | wait (b : TokenBucket) (evs : List (ℚ × ℕ)) (b' : TokenBucket)
      (h : waitForToken b evs = some b') : BucketStep b b'

/-- A trace in which every Poisson draw is zero — the almost-sure behaviour
of `stats.poisson(mu).rvs()` when every mean `mu` is `0`, which is forced
when `rate = 0`. -/
def ZeroDraws (evs : List (ℚ × ℕ)) : Prop :=
  ∀ e ∈ evs, e.2 = 0

/-- A bucket state from which `wait_for_token` never returns: every finite
trace of zero-draw refill events leaves the caller suspended in the
`while self.tokens < 1` loop. -/
def BlockedForever (b : TokenBucket) : Prop :=
  ∀ evs, ZeroDraws evs → waitForToken b evs = none

/-! ### Request submitter selection (`AsynchronousScraper.__init__`, lines 159-162) -/

/-- The two helper coroutines a scraper can dispatch through (lines 119-131). -/
inductive SubmitFunc where
  | jsonGetRequest
  | jsonPostRequest
deriving DecidableEq

/-- Lines 159-162: `if method == 'GET': ... else: ...` — any string other
than exactly `"GET"` falls through to the POST submitter; there is no
validation branch and no exception. -/
def selectSubmitRequest (method : String) : SubmitFunc :=
  if method = "GET" then SubmitFunc.jsonGetRequest else SubmitFunc.jsonPostRequest

/-! ### AsynchronousScraper (`wafflescrapers.py` lines 133-210)

The network outcome of dispatching the request with original index `i`
during pass number `p` is an oracle `o p i : Option α`: `some payload` for a
decoded body, `none` for an exception captured by
`asyncio.gather(..., return_exceptions=True)`.  The request generator
`request_func` is modelled as `r : ℕ → List ρ`, where `r c` is the request
list produced by its `c`-th invocation (call 0 happens in `__init__`,
call `c + 1` at the end of pass `c`), so that regenerated requests may
differ across passes (fresh proxies) while keeping their original index. -/

/-- Positional boolean-mask selection, the semantics of numpy fancy
indexing `arr[mask]` used on lines 191-194. -/
def boolMask {γ : Type} : List Bool → List γ → List γ
  | true :: ms, x :: xs => x :: boolMask ms xs
  | false :: ms, _ :: xs => boolMask ms xs
  | _, _ => []

/-- The mutable arrays of `AsynchronousScraper` (lines 149-153). -/
structure ScrapeState (ρ α : Type) where
  pendingRequests : List ρ
  pendingIndices : List ℕ
  results : List (Option α)
  completedRequests : List ρ
  completedIndices : List ℕ

/-- `AsynchronousScraper.__init__` (lines 146-153): the full request list is
generated once (call 0), all indices are pending, nothing is completed. -/
def initState {ρ α : Type} (r : ℕ → List ρ) : ScrapeState ρ α :=
  { pendingRequests := r 0
    pendingIndices := List.range (r 0).length
    results := []
    completedRequests := []
    completedIndices := [] }

/-- One iteration of the `while` body of `scrape` (lines 186-202) during
pass number `p`: gather the outcomes of all pending requests in pending
order (`scraping_pass`), split them by the `is_exception` mask, append the
successes to `results` / `completed_requests` / `completed_indices`, keep
the failed indices pending, and regenerate their requests from a fresh
request list (`r (p + 1)`).  List indexing `request_list[pending_indices]`
is total here via `getD`; the scraper only ever uses the length of
`pendingRequests`. -/
def scrapingPass {ρ α : Type} [Inhabited ρ] (o : ℕ → ℕ → Option α) (r : ℕ → List ρ)
    (p : ℕ) (st : ScrapeState ρ α) : ScrapeState ρ α :=
  let newResults := st.pendingIndices.map (fun i => o p i)
  let isException := newResults.map Option.isNone
  let keep := isException.map not
  let results := st.results ++ boolMask keep newResults
  let completedRequests := st.completedRequests ++ boolMask keep st.pendingRequests
  let completedIndices := st.completedIndices ++ boolMask keep st.pendingIndices
  let pendingIndices := boolMask isException st.pendingIndices
  let requestList := r (p + 1)
  let pendingRequests := pendingIndices.map (fun i => requestList.getD i default)
  { pendingRequests := pendingRequests
    pendingIndices := pendingIndices
    results := results
    completedRequests := completedRequests
    completedIndices := completedIndices }

/-- The guarded loop step of `scrape` (line 183):
`while (len(self.pending_requests) > 0) and (num_passes <= self.num_retry)`.
A pair `(state, num_passes)` with a false guard is left unchanged. -/
def loopStep {ρ α : Type} [Inhabited ρ] (o : ℕ → ℕ → Option α) (r : ℕ → List ρ)
    (nr : ℕ) (s : ScrapeState ρ α × ℕ) : ScrapeState ρ α × ℕ :=
  if 0 < s.1.pendingRequests.length ∧ s.2 ≤ nr then
    (scrapingPass o r s.2 s.1, s.2 + 1)
  else s

/-- The scraper state and pass counter after `k` guarded loop iterations
from the freshly constructed scraper.  Since the counter strictly increases
on every executed pass and the guard needs `num_passes ≤ num_retry`,
`nr + 1` iterations always reach the loop's exit (proved below), so the
`while` loop is exactly `stateAfter o r nr (nr + 1)`. -/
def stateAfter {ρ α : Type} [Inhabited ρ] (o : ℕ → ℕ → Option α) (r : ℕ → List ρ)
    (nr k : ℕ) : ScrapeState ρ α × ℕ :=
  (loopStep o r nr)^[k] (initState r, 0)

/-- First success of index `i` scanning passes `s, s + 1, ...` for `fuel`
passes: the payload of the first pass whose outcome is not an exception,
`none` if all of them fail. -/
def searchFrom {α : Type} (o : ℕ → ℕ → Option α) (i : ℕ) : ℕ → ℕ → Option α
  | _, 0 => none
  | s, fuel + 1 =>
    match o s i with
    | some v => some v
    | none => searchFrom o i (s + 1) fuel

/-- The specified per-index outcome of a whole run with retry budget `nr`:
the payload of the first of the passes `0..nr` that succeeds for `i`, and
the unresolved marker `none` if they all fail.  (A request stays pending
until its first success, so this is the payload the engine records.) -/
def resolve {α : Type} (o : ℕ → ℕ → Option α) (nr i : ℕ) : Option α :=
  searchFrom o i 0 (nr + 1)

/-- The comparison used to sort positions of `keys` by key value
(ties, which cannot occur for the distinct completed indices, broken
stably by position). -/
def argsortLE (keys : List ℕ) (i j : ℕ) : Prop :=
  keys.getD i 0 < keys.getD j 0 ∨ (keys.getD i 0 = keys.getD j 0 ∧ i ≤ j)

instance (keys : List ℕ) : DecidableRel (argsortLE keys) := fun i j => by
  unfold argsortLE
  exact inferInstance

instance (keys : List ℕ) : IsTotal ℕ (argsortLE keys) := ⟨by
  intro a b
  unfold argsortLE
  omega⟩

instance (keys : List ℕ) : IsTrans ℕ (argsortLE keys) := ⟨by
  intro a b c
  unfold argsortLE
  omega⟩

/-- `np.argsort(keys)` (line 208): the list of positions of `keys`, sorted
by key value.  The completed-indices array it is applied to holds distinct
values, for which every sorting algorithm returns the same permutation. -/
def argsort (keys : List ℕ) : List ℕ :=
  List.insertionSort (argsortLE keys) (List.range keys.length)

/-- `AsynchronousScraper.scrape` (lines 176-210): run the retry loop to its
exit, record the still-pending indices as failures (`None` markers appended
to `results`, their indices appended to `completed_indices`), and emit the
results reordered by ascending original index (`argsort` on line 208). -/
def scrape {ρ α : Type} [Inhabited ρ] (o : ℕ → ℕ → Option α) (r : ℕ → List ρ)
    (nr : ℕ) : List (Option α) :=
  let st := (stateAfter o r nr (nr + 1)).1
  let numFail := st.pendingIndices.length
  let results := st.results ++ List.replicate numFail (none : Option α)
  let completedIndices := st.completedIndices ++ st.pendingIndices
  let reqOrder := argsort completedIndices
  reqOrder.map (fun j => results.getD j none)

/-- The invariant of the scraper state before/after each pass, `p` being the
current value of `num_passes`: parallel request/index arrays have equal
length; completed and pending indices together are exactly the original
index range; the results array is, position by position, the specified
outcome of its completed index; and every still-pending index failed in
every pass executed so far. -/
structure ScrapeInv {ρ α : Type} (o : ℕ → ℕ → Option α) (nr N : ℕ)
    (st : ScrapeState ρ α) (p : ℕ) : Prop where
  lenPR : st.pendingRequests.length = st.pendingIndices.length
  perm : (st.completedIndices ++ st.pendingIndices).Perm (List.range N)
  resEq : st.results = st.completedIndices.map (resolve o nr)
  pendFail : ∀ i ∈ st.pendingIndices, ∀ q, q < p → o q i = none

/-- Concrete two-request run (index 1 fails on pass 0, succeeds on pass 1)
instantiating the index-fidelity theorem. -/
def demoOracle : ℕ → ℕ → Option ℕ :=
  fun p i => if p = 0 ∧ i = 1 then none else some (10 * p + i)

def demoReqFunc : ℕ → List ℕ := fun _ => [100, 200]

/-! ### Token-bucket helper lemmas -/

theorem refillAll_nil (b : TokenBucket) : refillAll b [] = b := rfl

theorem refillAll_cons (b : TokenBucket) (e : ℚ × ℕ) (evs : List (ℚ × ℕ)) :
    refillAll b (e :: evs) = refillAll (mintTokens b e.1 e.2) evs := rfl

theorem mintTokens_maxTokens (b : TokenBucket) (now : ℚ) (draw : ℕ) :
    (mintTokens b now draw).maxTokens = b.maxTokens := rfl

theorem mintTokens_backoff (b : TokenBucket) (now : ℚ) (draw : ℕ) :
    (mintTokens b now draw).backoff = b.backoff := rfl

theorem refillAll_maxTokens (b : TokenBucket) (evs : List (ℚ × ℕ)) :
    (refillAll b evs).maxTokens = b.maxTokens := by
  induction evs generalizing b with
  | nil => rfl
  | cons e rest ih => rw [refillAll_cons, ih, mintTokens_maxTokens]

theorem refillAll_backoff (b : TokenBucket) (evs : List (ℚ × ℕ)) :
    (refillAll b evs).backoff = b.backoff := by
  induction evs generalizing b with
  | nil => rfl
  | cons e rest ih => rw [refillAll_cons, ih, mintTokens_backoff]

/-- When the first availability check passes (level at least 1), the call
admits at once: no refill runs, no event of the trace is consumed, and the
only change is the debit of one token. -/
theorem waitForToken_of_ge (b : TokenBucket) (evs : List (ℚ × ℕ)) (h1 : 1 ≤ b.tokens) :
    waitForToken b evs = some { b with tokens := b.tokens - 1 } := by
  cases evs with
  | nil => simp [waitForToken, not_lt.mpr h1]
  | cons e rest => simp [waitForToken, not_lt.mpr h1]

/-- Characterization of an admitted `wait_for_token` call: it consumed some
prefix of `k` events — one refill per failed check — the check after those
`k` refills passed, and the result is that state debited by exactly one. -/
theorem waitForToken_run (b : TokenBucket) (evs : List (ℚ × ℕ)) (b' : TokenBucket)
    (h : waitForToken b evs = some b') :
    ∃ k, k ≤ evs.length ∧
      (∀ j, j < k → (refillAll b (evs.take j)).tokens < 1) ∧
      1 ≤ (refillAll b (evs.take k)).tokens ∧
      b' = { refillAll b (evs.take k) with
              tokens := (refillAll b (evs.take k)).tokens - 1 } := by
  induction evs generalizing b with
  | nil =>
    rw [waitForToken] at h
    by_cases hb : b.tokens < 1
    · simp [hb] at h
    · rw [if_neg hb] at h
      refine ⟨0, Nat.zero_le _, fun j hj => absurd hj (Nat.not_lt_zero j), ?_, ?_⟩
      · simpa [refillAll_nil] using not_lt.mp hb
      · simpa [refillAll_nil] using (Option.some.injEq _ _ ▸ h).symm
  | cons e rest ih =>
    rw [waitForToken] at h
    by_cases hb : b.tokens < 1
    · rw [if_pos hb] at h
      obtain ⟨k, hk, hlt, hge, heq⟩ := ih (mintTokens b e.1 e.2) h
      refine ⟨k + 1, by simpa using Nat.succ_le_succ hk, ?_, ?_, ?_⟩
      · intro j hj
        cases j with
        | zero => simpa [refillAll_nil] using hb
        | succ j' =>
          rw [List.take_succ_cons, refillAll_cons]
          exact hlt j' (by omega)
      · rw [List.take_succ_cons, refillAll_cons]
        exact hge
      · rw [List.take_succ_cons, refillAll_cons]
        exact heq
    · rw [if_neg hb] at h
      refine ⟨0, Nat.zero_le _, fun j hj => absurd hj (Nat.not_lt_zero j), ?_, ?_⟩
      · simpa [refillAll_nil] using not_lt.mp hb
      · simpa [refillAll_nil] using (Option.some.injEq _ _ ▸ h).symm

/-- Refills never lift the level above `max_tokens` and never push a
nonnegative level negative; the capacity field itself is untouched. -/
theorem mintTokens_bounds (b : TokenBucket) (now : ℚ) (draw : ℕ)
    (h0 : 0 ≤ b.tokens) (h1 : b.tokens ≤ b.maxTokens) :
    0 ≤ (mintTokens b now draw).tokens ∧
      (mintTokens b now draw).tokens ≤ (mintTokens b now draw).maxTokens := by
  constructor
  · exact le_min (add_nonneg h0 (Nat.cast_nonneg draw)) (le_trans h0 h1)
  · exact min_le_right _ _

theorem refillAll_bounds (b : TokenBucket) (evs : List (ℚ × ℕ))
    (h0 : 0 ≤ b.tokens) (h1 : b.tokens ≤ b.maxTokens) :
    0 ≤ (refillAll b evs).tokens ∧
      (refillAll b evs).tokens ≤ (refillAll b evs).maxTokens := by
  induction evs generalizing b with
  | nil => exact ⟨h0, h1⟩
  | cons e rest ih =>
    rw [refillAll_cons]
    obtain ⟨g0, g1⟩ := mintTokens_bounds b e.1 e.2 h0 h1
    exact ih (mintTokens b e.1 e.2) g0 g1

/-- A zero draw can only keep or lower the level (`min (t + 0) max ≤ t`). -/
theorem mintTokens_zero_draw (s : TokenBucket) (now : ℚ) :
    (mintTokens s now 0).tokens ≤ s.tokens := by
  simp only [mintTokens]
  exact le_trans (min_le_left _ _) (by simp)

/-- A caller that finds fewer than one token can never be admitted on a
zero-draw trace: every re-check sees a level that has not grown, so the
`while` loop never exits. -/
theorem blocked_of_lt_one (s : TokenBucket) (hs : s.tokens < 1) :
    BlockedForever s := by
  intro evs hz
  induction evs generalizing s with
  | nil => simp [waitForToken, hs]
  | cons e rest ih =>
    rw [waitForToken, if_pos hs]
    have he : e.2 = 0 := hz e (List.mem_cons_self e rest)
    have hlt : (mintTokens s e.1 e.2).tokens < 1 := by
      rw [he]
      exact lt_of_le_of_lt (mintTokens_zero_draw s e.1) hs
    exact ih _ hlt (fun x hx => hz x (List.mem_cons_of_mem e hx))

/-! ### Claim theorems for the token bucket -/

/-- C4: `wait_for_token` admits the caller only when the level is at least 1
immediately before the debit, debits exactly one token per admitted request,
and while fewer than one token is available it suspends (consuming one
backoff interval per failed check, the `backoff` field staying fixed) and
re-checks instead of returning. -/
theorem wait_for_token_admission (b : TokenBucket) (evs : List (ℚ × ℕ)) (b' : TokenBucket)
    (h : waitForToken b evs = some b') :
    ∃ k, k ≤ evs.length ∧
      1 ≤ (refillAll b (evs.take k)).tokens ∧
      b'.tokens = (refillAll b (evs.take k)).tokens - 1 ∧
      b' = { refillAll b (evs.take k) with
              tokens := (refillAll b (evs.take k)).tokens - 1 } ∧
      (∀ j, j < k → (refillAll b (evs.take j)).tokens < 1) ∧
      b'.backoff = b.backoff := by
  obtain ⟨k, hk, hlt, hge, heq⟩ := waitForToken_run b evs b' h
  refine ⟨k, hk, hge, by rw [heq], heq, hlt, ?_⟩
  rw [heq]
  exact refillAll_backoff b _

theorem wait_for_token_admission_witness :
    waitForToken ⟨0, 5, 1, 0, 1⟩ [(1, 2)] = some ⟨1, 5, 1, 1, 1⟩ ∧
      (∃ k, k ≤ ([((1 : ℚ), (2 : ℕ))]).length ∧
        1 ≤ (refillAll ⟨0, 5, 1, 0, 1⟩ (([((1 : ℚ), (2 : ℕ))]).take k)).tokens ∧
        (⟨1, 5, 1, 1, 1⟩ : TokenBucket).tokens =
          (refillAll ⟨0, 5, 1, 0, 1⟩ (([((1 : ℚ), (2 : ℕ))]).take k)).tokens - 1 ∧
        (⟨1, 5, 1, 1, 1⟩ : TokenBucket) =
          { refillAll ⟨0, 5, 1, 0, 1⟩ (([((1 : ℚ), (2 : ℕ))]).take k) with
              tokens := (refillAll ⟨0, 5, 1, 0, 1⟩ (([((1 : ℚ), (2 : ℕ))]).take k)).tokens - 1 } ∧
        (∀ j, j < k →
          (refillAll ⟨0, 5, 1, 0, 1⟩ (([((1 : ℚ), (2 : ℕ))]).take j)).tokens < 1) ∧
        (⟨1, 5, 1, 1, 1⟩ : TokenBucket).backoff = (⟨0, 5, 1, 0, 1⟩ : TokenBucket).backoff) := by
  have h : waitForToken ⟨0, 5, 1, 0, 1⟩ [(1, 2)] = some ⟨1, 5, 1, 1, 1⟩ := by
    norm_num [waitForToken, mintTokens, min_def]
  exact ⟨h, wait_for_token_admission ⟨0, 5, 1, 0, 1⟩ [(1, 2)] ⟨1, 5, 1, 1, 1⟩ h⟩

/-- C5: starting from construction with a nonnegative capacity, the level of
the bucket stays in `[0, max_tokens]` across every serialized sequence of
refills and admitted `wait_for_token` calls, and the capacity never changes. -/
theorem token_level_bounds (M r β t0 : ℚ) (hM : 0 ≤ M) (b : TokenBucket)
    (h : Relation.ReflTransGen BucketStep (TokenBucket.init M r β t0) b) :
    0 ≤ b.tokens ∧ b.tokens ≤ b.maxTokens ∧ b.maxTokens = M := by
  induction h with
  | refl => exact ⟨hM, le_refl M, rfl⟩
  | tail hsteps hstep ih =>
    obtain ⟨i0, i1, i2⟩ := ih
    cases hstep with
    | mint now draw =>
      obtain ⟨g0, g1⟩ := mintTokens_bounds _ now draw i0 i1
      exact ⟨g0, g1, by rw [mintTokens_maxTokens]; exact i2⟩
    | wait evs b2 hw =>
      obtain ⟨k, _, _, hge, heq⟩ := waitForToken_run _ evs _ hw
      obtain ⟨r0, r1⟩ := refillAll_bounds _ (evs.take k) i0 i1
      subst heq
      refine ⟨?_, ?_, ?_⟩
      · simpa using sub_nonneg.mpr hge
      · simpa using le_trans (sub_le_self _ (by norm_num : (0:ℚ) ≤ 1)) r1
      · simpa [refillAll_maxTokens] using i2

theorem token_level_bounds_witness :
    (0 : ℚ) ≤ 2 ∧
      (0 ≤ (mintTokens (TokenBucket.init 2 1 1 0) 3 5).tokens ∧
        (mintTokens (TokenBucket.init 2 1 1 0) 3 5).tokens ≤
          (mintTokens (TokenBucket.init 2 1 1 0) 3 5).maxTokens ∧
        (mintTokens (TokenBucket.init 2 1 1 0) 3 5).maxTokens = 2) :=
  ⟨by norm_num,
    token_level_bounds 2 1 1 0 (by norm_num) _
      (Relation.ReflTransGen.single (BucketStep.mint _ 3 5))⟩

/-- C6, counterexample: a `wait_for_token` call that finds a token on its
first availability check runs no refill at all, although an event (clock
reading 5, positive draw) was available: the returned bucket still has
`last_update = 0`, not advanced to `now = 5`, and its level was not clamped
through the refill path — so the refill does NOT run on every availability
check, only after failed ones. -/
theorem refill_skipped_counterexample :
    waitForToken ⟨1, 10, 2, 0, 1⟩ [(5, 3)] = some ⟨0, 10, 2, 0, 1⟩ ∧
      (⟨0, 10, 2, 0, 1⟩ : TokenBucket).lastUpdate ≠ 5 ∧
      mintTokens ⟨1, 10, 2, 0, 1⟩ 5 3 ≠ ⟨0, 10, 2, 0, 1⟩ := by
  refine ⟨by norm_num [waitForToken], by norm_num, ?_⟩
  intro hcontra
  have : (mintTokens ⟨1, 10, 2, 0, 1⟩ 5 3).lastUpdate = (0 : ℚ) := by rw [hcontra]
  simp [mintTokens] at this

/-- C6, amended: the refill of `mint_tokens` (elapsed-time Poisson draw,
clamp to capacity, advance of `last_update` to `now`) runs exactly once per
FAILED availability check of `wait_for_token`; an admitted call's final
`last_update` and level are those of the chain of such refills, and a call
whose first check already finds a token performs the debit with no refill
and no field change besides the level. -/
theorem refill_runs_on_failed_checks (b : TokenBucket) (evs : List (ℚ × ℕ)) (b' : TokenBucket)
    (h : waitForToken b evs = some b') :
    ∃ k, k ≤ evs.length ∧
      (∀ j, j < k → (refillAll b (evs.take j)).tokens < 1) ∧
      b'.lastUpdate = (refillAll b (evs.take k)).lastUpdate ∧
      b'.tokens = (refillAll b (evs.take k)).tokens - 1 ∧
      b'.maxTokens = b.maxTokens ∧ b'.rate = b.rate ∧
      (1 ≤ b.tokens → b' = { b with tokens := b.tokens - 1 }) := by
  obtain ⟨k, hk, hlt, hge, heq⟩ := waitForToken_run b evs b' h
  have hrate : ∀ s : TokenBucket, ∀ l, (refillAll s l).rate = s.rate := by
    intro s l
    induction l generalizing s with
    | nil => rfl
    | cons e rest ih => rw [refillAll_cons, ih]; rfl
  refine ⟨k, hk, hlt, by rw [heq], by rw [heq], ?_, ?_, ?_⟩
  · rw [heq]
    simpa using refillAll_maxTokens b (evs.take k)
  · rw [heq]
    simpa using hrate b (evs.take k)
  · intro h1
    have hg := waitForToken_of_ge b evs h1
    rw [hg] at h
    exact (Option.some_inj.mp h).symm

theorem refill_runs_on_failed_checks_witness :
    waitForToken ⟨0, 5, 1, 0, 1⟩ [(2, 4)] = some ⟨3, 5, 1, 2, 1⟩ ∧
      (∃ k, k ≤ ([((2 : ℚ), (4 : ℕ))]).length ∧
        (∀ j, j < k →
          (refillAll ⟨0, 5, 1, 0, 1⟩ (([((2 : ℚ), (4 : ℕ))]).take j)).tokens < 1) ∧
        (⟨3, 5, 1, 2, 1⟩ : TokenBucket).lastUpdate =
          (refillAll ⟨0, 5, 1, 0, 1⟩ (([((2 : ℚ), (4 : ℕ))]).take k)).lastUpdate ∧
        (⟨3, 5, 1, 2, 1⟩ : TokenBucket).tokens =
          (refillAll ⟨0, 5, 1, 0, 1⟩ (([((2 : ℚ), (4 : ℕ))]).take k)).tokens - 1 ∧
        (⟨3, 5, 1, 2, 1⟩ : TokenBucket).maxTokens = (⟨0, 5, 1, 0, 1⟩ : TokenBucket).maxTokens ∧
        (⟨3, 5, 1, 2, 1⟩ : TokenBucket).rate = (⟨0, 5, 1, 0, 1⟩ : TokenBucket).rate ∧
        (1 ≤ (⟨0, 5, 1, 0, 1⟩ : TokenBucket).tokens →
          (⟨3, 5, 1, 2, 1⟩ : TokenBucket) =
            { (⟨0, 5, 1, 0, 1⟩ : TokenBucket) with
                tokens := (⟨0, 5, 1, 0, 1⟩ : TokenBucket).tokens - 1 })) := by
  have h : waitForToken ⟨0, 5, 1, 0, 1⟩ [(2, 4)] = some ⟨3, 5, 1, 2, 1⟩ := by
    norm_num [waitForToken, mintTokens, min_def]
  exact ⟨h, refill_runs_on_failed_checks ⟨0, 5, 1, 0, 1⟩ [(2, 4)] ⟨3, 5, 1, 2, 1⟩ h⟩

/-- C8, counterexample: with capacity 1 and rate 0 the very first call is
admitted without consuming any event, leaving the bucket at level 0; from
then on every caller re-checks forever on zero-draw traces (the only
almost-sure traces when the Poisson mean is 0) and `wait_for_token` never
returns, for a trace of any finite length.  A request stuck here is never
submitted and never raises, so the pass never settles and the retry logic
never marks it unresolved — nothing is ever "surfaced". -/
theorem capacity_one_counterexample :
    waitForToken (TokenBucket.init 1 0 1 0) [] =
      some { TokenBucket.init 1 0 1 0 with tokens := 0 } ∧
      BlockedForever { TokenBucket.init 1 0 1 0 with tokens := 0 } := by
  constructor
  · norm_num [waitForToken, TokenBucket.init]
  · exact blocked_of_lt_one _ (by norm_num [TokenBucket.init])

/-- C8, amended: with `max_tokens = 1` and `rate = 0`, the first
`wait_for_token` call is admitted immediately (debiting the single token)
whatever its trace; every Poisson mean is 0 so the draws are almost surely
zero; zero-draw refills never increase the level; and any caller that finds
the level below 1 is blocked forever — it is never admitted, never submits
its request, and hence is never surfaced by the retry logic. -/
theorem capacity_one_zero_rate (b : TokenBucket)
    (htok : b.tokens = 1) (hrate : b.rate = 0) :
    (∀ evs, waitForToken b evs = some { b with tokens := b.tokens - 1 }) ∧
      (∀ s : TokenBucket, s.rate = b.rate → ∀ now, poissonMean s now = 0) ∧
      (∀ s : TokenBucket, ∀ now, (mintTokens s now 0).tokens ≤ s.tokens) ∧
      (∀ s : TokenBucket, s.tokens < 1 → BlockedForever s) := by
  refine ⟨?_, ?_, ?_, ?_⟩
  · intro evs
    exact waitForToken_of_ge b evs (by rw [htok])
  · intro s hs now
    simp [poissonMean, hs, hrate]
  · intro s now
    exact mintTokens_zero_draw s now
  · intro s hs
    exact blocked_of_lt_one s hs

theorem capacity_one_zero_rate_witness :
    (TokenBucket.init 1 0 1 0).tokens = 1 ∧
      waitForToken (TokenBucket.init 1 0 1 0) [(7, 0)] =
        some { TokenBucket.init 1 0 1 0 with
                tokens := (TokenBucket.init 1 0 1 0).tokens - 1 } :=
  ⟨rfl, (capacity_one_zero_rate (TokenBucket.init 1 0 1 0) rfl rfl).1 [(7, 0)]⟩

/-! ### Claim theorems for `ProxyPool` and submitter selection -/

/-- C7, counterexample: constructing the pool from an EMPTY source does not
fail at all — there is no `ConfigError` anywhere in the code — it completes
normally with zero proxies (`np.loadtxt` yields an empty record list, the
comprehensions yield empty lists); the breakage only surfaces later, when
`random_proxy` tries to sample `randint(0, 0)`. -/
theorem proxyPool_empty_counterexample :
    ProxyPool.init [] = { proxyList := [], numProxies := 0 } := rfl

/-- C7, amended: on any source the constructor completes, turning every
record into exactly one proxy-endpoint dictionary; a non-empty source gives
a non-empty pool.  An empty source is not rejected with a `ConfigError` —
no such error class exists — it just produces an empty pool. -/
theorem proxyPool_parses_all_records (records : List (List Char)) (hne : records ≠ []) :
    (ProxyPool.init records).numProxies = records.length ∧
      0 < (ProxyPool.init records).numProxies ∧
      ∀ j, j < records.length →
        (ProxyPool.init records).proxyList[j]? =
          some { http := proxyURL (records.getD j []), https := proxyURL (records.getD j []) } := by
  have hlen : (ProxyPool.init records).numProxies = records.length := by
    simp [ProxyPool.init]
  refine ⟨hlen, ?_, ?_⟩
  · rw [hlen]
    exact List.length_pos.mpr hne
  · intro j hj
    have hj2 : j < ((records.map proxyURL).map
        (fun u => { http := u, https := u : Proxy })).length := by
      simpa using hj
    simp only [ProxyPool.init]
    rw [List.getElem?_eq_getElem hj2]
    simp [List.getD_eq_getElem?_getD, List.getElem?_eq_getElem hj]

theorem proxyPool_parses_all_records_witness :
    ([("1.2.3.4:80:user:pw".toList)] ≠ ([] : List (List Char))) ∧
      ((ProxyPool.init [("1.2.3.4:80:user:pw".toList)]).numProxies =
          [("1.2.3.4:80:user:pw".toList)].length ∧
        0 < (ProxyPool.init [("1.2.3.4:80:user:pw".toList)]).numProxies ∧
        ∀ j, j < [("1.2.3.4:80:user:pw".toList)].length →
          (ProxyPool.init [("1.2.3.4:80:user:pw".toList)]).proxyList[j]? =
            some { http := proxyURL ([("1.2.3.4:80:user:pw".toList)].getD j []),
                   https := proxyURL ([("1.2.3.4:80:user:pw".toList)].getD j []) }) :=
  ⟨by simp, proxyPool_parses_all_records [("1.2.3.4:80:user:pw".toList)] (by simp)⟩

/-- C9: the constructor's method dispatch treats every string other than the
exact literal `"GET"` — lowercase `"get"` included — as POST; the selection
is total, with no validation and no error path. -/
theorem method_dispatch_defaults_to_post (m : String) (h : m ≠ "GET") :
    selectSubmitRequest m = SubmitFunc.jsonPostRequest := by
  simp [selectSubmitRequest, h]

theorem method_dispatch_defaults_to_post_witness :
    ("get" ≠ "GET") ∧ selectSubmitRequest "get" = SubmitFunc.jsonPostRequest :=
  ⟨by decide, method_dispatch_defaults_to_post "get" (by decide)⟩

/-- C10: for a pool built by the constructor, `num_proxies` is exactly the
length of `proxy_list`, so any index drawn from `randint(0, num_proxies)` —
that is, any `k < num_proxies` — indexes within bounds and yields an element
of `proxy_list`. -/
theorem random_proxy_in_bounds (records : List (List Char)) (k : ℕ)
    (hk : k < (ProxyPool.init records).numProxies) :
    (ProxyPool.init records).numProxies = (ProxyPool.init records).proxyList.length ∧
      ∃ p, randomProxy (ProxyPool.init records) k = some p ∧
        p ∈ (ProxyPool.init records).proxyList := by
  have hlen : (ProxyPool.init records).numProxies =
      (ProxyPool.init records).proxyList.length := rfl
  have hk2 : k < (ProxyPool.init records).proxyList.length := hlen ▸ hk
  refine ⟨hlen, (ProxyPool.init records).proxyList[k], ?_, ?_⟩
  · simp [randomProxy, List.getElem?_eq_getElem hk2]
  · exact List.getElem_mem hk2

theorem random_proxy_in_bounds_witness :
    (0 < (ProxyPool.init [['a']]).numProxies) ∧
      ((ProxyPool.init [['a']]).numProxies = (ProxyPool.init [['a']]).proxyList.length ∧
        ∃ p, randomProxy (ProxyPool.init [['a']]) 0 = some p ∧
          p ∈ (ProxyPool.init [['a']]).proxyList) :=
  ⟨by simp [ProxyPool.init], random_proxy_in_bounds [['a']] 0 (by simp [ProxyPool.init])⟩

/-! ### Boolean-mask lemmas -/

/-- Masking a list with the pointwise image of a predicate on itself is
filtering by that predicate. -/
theorem boolMask_map_self {γ : Type} (f : γ → Bool) (l : List γ) :
    boolMask (l.map f) l = l.filter f := by
  induction l with
  | nil => rfl
  | cons x xs ih =>
    rw [List.map_cons, List.filter_cons]
    cases hfx : f x
    · rw [boolMask, ih]
      simp
    · rw [boolMask, ih]
      simp

/-- Masking commutes with mapping the values. -/
theorem boolMask_map {γ δ : Type} (g : γ → δ) (m : List Bool) (l : List γ) :
    boolMask m (l.map g) = (boolMask m l).map g := by
  induction m generalizing l with
  | nil => cases l <;> rfl
  | cons b ms ih =>
    cases l with
    | nil => cases b <;> rfl
    | cons x xs =>
      cases b
      · rw [List.map_cons, boolMask, boolMask, ih]
      · rw [List.map_cons, boolMask, boolMask, ih, List.map_cons]

/-! ### Field equations for one scraping pass -/

theorem scrapingPass_pendingIndices {ρ α : Type} [Inhabited ρ]
    (o : ℕ → ℕ → Option α) (r : ℕ → List ρ) (p : ℕ) (st : ScrapeState ρ α) :
    (scrapingPass o r p st).pendingIndices =
      st.pendingIndices.filter (fun i => (o p i).isNone) := by
  show boolMask ((st.pendingIndices.map (fun i => o p i)).map Option.isNone)
      st.pendingIndices = _
  rw [List.map_map]
  exact boolMask_map_self _ _

theorem scrapingPass_completedIndices {ρ α : Type} [Inhabited ρ]
    (o : ℕ → ℕ → Option α) (r : ℕ → List ρ) (p : ℕ) (st : ScrapeState ρ α) :
    (scrapingPass o r p st).completedIndices =
      st.completedIndices ++ st.pendingIndices.filter (fun i => !(o p i).isNone) := by
  show st.completedIndices ++
      boolMask ((((st.pendingIndices.map (fun i => o p i)).map Option.isNone)).map not)
        st.pendingIndices = _
  rw [List.map_map, List.map_map]
  rw [boolMask_map_self]
  rfl

theorem scrapingPass_results {ρ α : Type} [Inhabited ρ]
    (o : ℕ → ℕ → Option α) (r : ℕ → List ρ) (p : ℕ) (st : ScrapeState ρ α) :
    (scrapingPass o r p st).results =
      st.results ++
        (st.pendingIndices.filter (fun i => !(o p i).isNone)).map (fun i => o p i) := by
  show st.results ++
      boolMask ((((st.pendingIndices.map (fun i => o p i)).map Option.isNone)).map not)
        (st.pendingIndices.map (fun i => o p i)) = _
  rw [boolMask_map, List.map_map, List.map_map, boolMask_map_self]
  rfl

theorem scrapingPass_length {ρ α : Type} [Inhabited ρ]
    (o : ℕ → ℕ → Option α) (r : ℕ → List ρ) (p : ℕ) (st : ScrapeState ρ α) :
    (scrapingPass o r p st).pendingRequests.length =
      (scrapingPass o r p st).pendingIndices.length := by
  show ((scrapingPass o r p st).pendingIndices.map
      (fun i => (r (p + 1)).getD i default)).length = _
  exact List.length_map _ _

/-! ### The specified per-index outcome -/

theorem searchFrom_skip {α : Type} (o : ℕ → ℕ → Option α) (i : ℕ) (k : ℕ) :
    ∀ s fuel, (∀ q, s ≤ q → q < s + k → o q i = none) →
      searchFrom o i s (k + fuel) = searchFrom o i (s + k) fuel := by
  induction k with
  | zero =>
    intro s fuel _
    simp
  | succ k' ih =>
    intro s fuel h
    have h0 : o s i = none := h s (le_refl s) (by omega)
    have e1 : k' + 1 + fuel = (k' + fuel) + 1 := by omega
    rw [e1, searchFrom, h0]
    have e2 : s + (k' + 1) = (s + 1) + k' := by omega
    rw [e2]
    exact ih (s + 1) fuel (fun q h1 h2 => h q (by omega) (by omega))

/-- If every pass before `p` failed for `i` and pass `p` (within the retry
budget) succeeded, the run's outcome for `i` is the pass-`p` payload. -/
theorem resolve_eq_of_first {α : Type} (o : ℕ → ℕ → Option α) (nr i p : ℕ)
    (hp : p ≤ nr) (hfail : ∀ q, q < p → o q i = none)
    (hsucc : (o p i).isSome = true) :
    resolve o nr i = o p i := by
  unfold resolve
  have hsplit : nr + 1 = p + (nr - p + 1) := by omega
  rw [hsplit, searchFrom_skip o i p 0 (nr - p + 1) (fun q h1 h2 => hfail q (by omega))]
  obtain ⟨v, hv⟩ := Option.isSome_iff_exists.mp hsucc
  rw [Nat.zero_add, searchFrom, hv]

/-- If every pass within the retry budget failed for `i`, the run's outcome
for `i` is the unresolved marker. -/
theorem resolve_eq_none {α : Type} (o : ℕ → ℕ → Option α) (nr i : ℕ)
    (hall : ∀ q, q ≤ nr → o q i = none) :
    resolve o nr i = none := by
  unfold resolve
  have hsplit : nr + 1 = (nr + 1) + 0 := rfl
  rw [hsplit, searchFrom_skip o i (nr + 1) 0 0 (fun q h1 h2 => hall q (by omega))]
  rfl

/-! ### The batch-state invariant -/

theorem scrapeInv_init {ρ α : Type} [Inhabited ρ] (o : ℕ → ℕ → Option α)
    (r : ℕ → List ρ) (nr : ℕ) :
    ScrapeInv (α := α) o nr (r 0).length (initState r) 0 := by
  refine ⟨?_, ?_, rfl, ?_⟩
  · simp [initState]
  · simp [initState]
  · intro i _ q hq
    omega

theorem scrapeInv_step {ρ α : Type} [Inhabited ρ] (o : ℕ → ℕ → Option α)
    (r : ℕ → List ρ) (nr N p : ℕ) (st : ScrapeState ρ α)
    (inv : ScrapeInv o nr N st p) (hp : p ≤ nr) :
    ScrapeInv o nr N (scrapingPass o r p st) (p + 1) := by
  refine ⟨scrapingPass_length o r p st, ?_, ?_, ?_⟩
  · rw [scrapingPass_completedIndices, scrapingPass_pendingIndices, List.append_assoc]
    have hpart : (st.pendingIndices.filter (fun i => !(o p i).isNone) ++
        st.pendingIndices.filter (fun i => (o p i).isNone)).Perm st.pendingIndices := by
      have h := List.filter_append_perm (fun i => !(o p i).isNone) st.pendingIndices
      simpa [Bool.not_not] using h
    exact ((hpart.append_left st.completedIndices)).trans inv.perm
  · rw [scrapingPass_results, scrapingPass_completedIndices, inv.resEq, List.map_append]
    congr 1
    apply List.map_congr_left
    intro i hi
    have hmem := List.mem_of_mem_filter hi
    have hsucc := List.of_mem_filter hi
    refine (resolve_eq_of_first o nr i p hp (inv.pendFail i hmem) ?_).symm
    cases hoi : o p i with
    | none => rw [hoi] at hsucc; simp at hsucc
    | some v => rfl
  · intro i hi q hq
    rw [scrapingPass_pendingIndices] at hi
    have hmem := List.mem_of_mem_filter hi
    have hfailp := List.of_mem_filter hi
    rcases Nat.lt_succ_iff_lt_or_eq.mp hq with h | h
    · exact inv.pendFail i hmem q h
    · subst h
      exact Option.isNone_iff_eq_none.mp hfailp

theorem stateAfter_succ {ρ α : Type} [Inhabited ρ] (o : ℕ → ℕ → Option α)
    (r : ℕ → List ρ) (nr k : ℕ) :
    stateAfter (α := α) o r nr (k + 1) = loopStep o r nr (stateAfter o r nr k) := by
  simp [stateAfter, Function.iterate_succ_apply']

/-- The invariant holds at every point of the run, and the pass counter
never exceeds `num_retry + 1`. -/
theorem scrapeInv_all {ρ α : Type} [Inhabited ρ] (o : ℕ → ℕ → Option α)
    (r : ℕ → List ρ) (nr k : ℕ) :
    ScrapeInv (α := α) o nr (r 0).length (stateAfter o r nr k).1
        (stateAfter o r nr k).2 ∧
      (stateAfter (α := α) o r nr k).2 ≤ nr + 1 := by
  induction k with
  | zero => exact ⟨scrapeInv_init o r nr, by simp [stateAfter]⟩
  | succ k' ih =>
    rw [stateAfter_succ, loopStep]
    by_cases hg : 0 < (stateAfter (α := α) o r nr k').1.pendingRequests.length ∧
        (stateAfter (α := α) o r nr k').2 ≤ nr
    · rw [if_pos hg]
      exact ⟨scrapeInv_step o r nr _ _ _ ih.1 hg.2, by
        have := hg.2
        simp only []
        omega⟩
    · rw [if_neg hg]
      exact ih

theorem loopStep_fix {ρ α : Type} [Inhabited ρ] (o : ℕ → ℕ → Option α)
    (r : ℕ → List ρ) (nr : ℕ) (s : ScrapeState ρ α × ℕ)
    (h : ¬(0 < s.1.pendingRequests.length ∧ s.2 ≤ nr)) : loopStep o r nr s = s := by
  rw [loopStep, if_neg h]

theorem stateAfter_progress {ρ α : Type} [Inhabited ρ] (o : ℕ → ℕ → Option α)
    (r : ℕ → List ρ) (nr k : ℕ) :
    (stateAfter (α := α) o r nr k).2 = k ∨
      loopStep o r nr (stateAfter (α := α) o r nr k) = stateAfter o r nr k := by
  induction k with
  | zero => exact Or.inl rfl
  | succ k' ih =>
    rcases ih with h | h
    · by_cases hg : 0 < (stateAfter (α := α) o r nr k').1.pendingRequests.length ∧
          (stateAfter (α := α) o r nr k').2 ≤ nr
      · left
        rw [stateAfter_succ, loopStep, if_pos hg]
        simpa using h
      · right
        have hfix := loopStep_fix o r nr _ hg
        rw [stateAfter_succ, hfix]
        exact hfix
    · right
      rw [stateAfter_succ, h]
      exact h

/-- After `num_retry + 1` iterations the guard of the `while` loop is false:
the loop has terminated. -/
theorem loop_terminated {ρ α : Type} [Inhabited ρ] (o : ℕ → ℕ → Option α)
    (r : ℕ → List ρ) (nr : ℕ) :
    loopStep o r nr (stateAfter (α := α) o r nr (nr + 1)) =
      stateAfter o r nr (nr + 1) := by
  rcases stateAfter_progress (α := α) o r nr (nr + 1) with h | h
  · apply loopStep_fix
    intro hg
    rw [h] at hg
    omega
  · exact h

/-- Running the loop for more than `num_retry + 1` iterations changes
nothing: `num_retry + 1` passes always suffice to reach the exit. -/
theorem stateAfter_stable {ρ α : Type} [Inhabited ρ] (o : ℕ → ℕ → Option α)
    (r : ℕ → List ρ) (nr m : ℕ) :
    stateAfter (α := α) o r nr (nr + 1 + m) = stateAfter o r nr (nr + 1) := by
  have h1 : stateAfter (α := α) o r nr (nr + 1 + m) =
      (loopStep o r nr)^[m] (stateAfter o r nr (nr + 1)) := by
    rw [stateAfter, stateAfter, Nat.add_comm (nr + 1) m, Function.iterate_add_apply]
  rw [h1]
  exact Function.iterate_fixed (loop_terminated o r nr) m

/-- At exit, either nothing is pending or the full budget of
`num_retry + 1` passes was spent. -/
theorem final_exit {ρ α : Type} [Inhabited ρ] (o : ℕ → ℕ → Option α)
    (r : ℕ → List ρ) (nr : ℕ) :
    (stateAfter (α := α) o r nr (nr + 1)).1.pendingIndices = [] ∨
      (stateAfter (α := α) o r nr (nr + 1)).2 = nr + 1 := by
  have hfix := loop_terminated (α := α) o r nr
  by_cases hg : 0 < (stateAfter (α := α) o r nr (nr + 1)).1.pendingRequests.length ∧
      (stateAfter (α := α) o r nr (nr + 1)).2 ≤ nr
  · exfalso
    have hsnd := congrArg Prod.snd hfix
    rw [loopStep, if_pos hg] at hsnd
    simp at hsnd
  · rcases not_and_or.mp hg with h | h
    · left
      have hlen : (stateAfter (α := α) o r nr (nr + 1)).1.pendingRequests.length = 0 := by
        omega
      have hinv := (scrapeInv_all (α := α) o r nr (nr + 1)).1
      rw [hinv.lenPR] at hlen
      exact List.length_eq_zero.mp hlen
    · right
      have hle := (scrapeInv_all (α := α) o r nr (nr + 1)).2
      omega

/-! ### Reassembly by `argsort` -/

theorem map_getD_range {γ : Type} (l : List γ) (d : γ) :
    (List.range l.length).map (fun i => l.getD i d) = l := by
  induction l with
  | nil => rfl
  | cons x xs ih =>
    rw [List.length_cons, List.range_succ_eq_map, List.map_cons, List.map_map]
    have hf : ((fun i => (x :: xs).getD i d) ∘ Nat.succ) = fun i => xs.getD i d := by
      funext i
      simp [List.getD_cons_succ]
    rw [hf, ih, List.getD_cons_zero]

theorem argsort_perm (keys : List ℕ) :
    (argsort keys).Perm (List.range keys.length) :=
  List.perm_insertionSort _ _

theorem argsort_sorted (keys : List ℕ) :
    List.Sorted (argsortLE keys) (argsort keys) :=
  List.sorted_insertionSort _ _

theorem argsort_mem_lt (keys : List ℕ) {j : ℕ} (hj : j ∈ argsort keys) :
    j < keys.length :=
  List.mem_range.mp ((argsort_perm keys).mem_iff.mp hj)

/-- For an array of keys that is a permutation of `0..N-1` (distinct keys),
the positions sorted by key value enumerate the keys in increasing order:
reading the keys along `argsort keys` gives exactly `0, 1, ..., N - 1`. -/
theorem argsort_map_of_perm_range (keys : List ℕ) (N : ℕ)
    (hperm : keys.Perm (List.range N)) :
    (argsort keys).map (fun j => keys.getD j 0) = List.range N := by
  have hnd : keys.Nodup := hperm.symm.nodup (List.nodup_range N)
  have hndA : (argsort keys).Nodup :=
    (argsort_perm keys).symm.nodup (List.nodup_range _)
  have hstrict : List.Pairwise (fun a b : ℕ => keys.getD a 0 < keys.getD b 0)
      (argsort keys) := by
    have hcomb := (argsort_sorted keys).and hndA
    refine hcomb.imp_of_mem ?_
    intro a b ha hb hab
    obtain ⟨hle, hne⟩ := hab
    rcases hle with h | ⟨heq, _⟩
    · exact h
    · exfalso
      apply hne
      have ha2 : a < keys.length := argsort_mem_lt keys ha
      have hb2 : b < keys.length := argsort_mem_lt keys hb
      rw [List.getD_eq_getElem keys 0 ha2, List.getD_eq_getElem keys 0 hb2] at heq
      exact hnd.getElem_inj_iff.mp heq
  have hmapsorted : List.Sorted (· < ·)
      ((argsort keys).map (fun j => keys.getD j 0)) :=
    List.pairwise_map.mpr hstrict
  have hmapperm : ((argsort keys).map (fun j => keys.getD j 0)).Perm (List.range N) := by
    have h1 := (argsort_perm keys).map (fun j => keys.getD j 0)
    rw [map_getD_range keys 0] at h1
    exact h1.trans hperm
  haveI : IsAntisymm ℕ (· < ·) := ⟨fun a b h1 h2 => absurd h2 (lt_asymm h1)⟩
  exact List.eq_of_perm_of_sorted hmapperm hmapsorted (List.sorted_lt_range N)

/-- Reading an index-keyed value array along `argsort keys` recovers the
values in ascending key order. -/
theorem argsort_map_vals {α : Type} (keys : List ℕ) (f : ℕ → Option α) (N : ℕ)
    (hperm : keys.Perm (List.range N)) :
    (argsort keys).map (fun j => (keys.map f).getD j none) =
      (List.range N).map f := by
  have h1 : (argsort keys).map (fun j => (keys.map f).getD j none) =
      (argsort keys).map (fun j => f (keys.getD j 0)) := by
    apply List.map_congr_left
    intro j hj
    have hjl : j < keys.length := argsort_mem_lt keys hj
    have hjm : j < (keys.map f).length := by simpa using hjl
    rw [List.getD_eq_getElem _ _ hjm, List.getElem_map, List.getD_eq_getElem keys 0 hjl]
  rw [h1]
  have h2 : (fun j => f (keys.getD j 0)) = f ∘ (fun j => keys.getD j 0) := rfl
  rw [h2, ← List.map_map, argsort_map_of_perm_range keys N hperm]

/-- Unfolding of `scrape` at its final loop state. -/
theorem scrape_def {ρ α : Type} [Inhabited ρ] (o : ℕ → ℕ → Option α)
    (r : ℕ → List ρ) (nr : ℕ) :
    scrape o r nr =
      (argsort ((stateAfter o r nr (nr + 1)).1.completedIndices ++
          (stateAfter o r nr (nr + 1)).1.pendingIndices)).map
        (fun j => ((stateAfter o r nr (nr + 1)).1.results ++
            List.replicate (stateAfter o r nr (nr + 1)).1.pendingIndices.length
              (none : Option α)).getD j none) := rfl

/-- Main correctness theorem of the engine (used by the index-fidelity and
invariant claims): the output of a run is exactly, slot by slot in ascending
original index, the resolution of the oracle over the retry budget. -/
theorem scrape_eq_resolve {ρ α : Type} [Inhabited ρ] (o : ℕ → ℕ → Option α)
    (r : ℕ → List ρ) (nr : ℕ) :
    scrape o r nr = (List.range (r 0).length).map (resolve o nr) := by
  obtain ⟨inv, hple⟩ := scrapeInv_all o r nr (nr + 1)
  have hpendnone : ∀ i ∈ (stateAfter o r nr (nr + 1)).1.pendingIndices,
      resolve o nr i = none := by
    intro i hi
    rcases final_exit o r nr with h | h
    · rw [h] at hi
      simp at hi
    · refine resolve_eq_none o nr i ?_
      intro q hq
      exact inv.pendFail i hi q (by omega)
  have hresults : (stateAfter o r nr (nr + 1)).1.results ++
      List.replicate (stateAfter o r nr (nr + 1)).1.pendingIndices.length
        (none : Option α) =
      ((stateAfter o r nr (nr + 1)).1.completedIndices ++
        (stateAfter o r nr (nr + 1)).1.pendingIndices).map (resolve o nr) := by
    rw [List.map_append, inv.resEq]
    congr 1
    have hlenm : ((stateAfter o r nr (nr + 1)).1.pendingIndices.map
        (resolve o nr)).length =
        (stateAfter o r nr (nr + 1)).1.pendingIndices.length :=
      List.length_map _ _
    symm
    rw [← hlenm]
    refine List.eq_replicate_length.mpr ?_
    intro b hb
    obtain ⟨i, hi, hbi⟩ := List.mem_map.mp hb
    rw [← hbi]
    exact hpendnone i hi
  rw [scrape_def, hresults]
  exact argsort_map_vals _ (resolve o nr) _ inv.perm

/-! ### Claim theorems for the batch engine -/

/-- C1: for every generated request list (of constant length `N` across
regenerations, per the generator interface) and every per-request failure
pattern, `scrape` returns exactly `N` slots, and slot `i` holds the decoded
payload of original request `i` when some executed pass succeeded for it and
the `None` marker otherwise — so no original index is dropped or duplicated,
whatever order requests complete in (the oracle abstracts completion). -/
theorem scrape_index_fidelity {ρ α : Type} [Inhabited ρ] (o : ℕ → ℕ → Option α)
    (r : ℕ → List ρ) (nr : ℕ)
    (hlen : ∀ c, (r c).length = (r 0).length) :
    (scrape o r nr).length = (r 0).length ∧
      ∀ i, i < (r 0).length → (scrape o r nr).getD i none = resolve o nr i := by
  have h := scrape_eq_resolve o r nr
  constructor
  · rw [h]
    simp
  · intro i hi
    rw [h]
    have hi2 : i < ((List.range (r 0).length).map (resolve o nr)).length := by
      simpa using hi
    rw [List.getD_eq_getElem _ _ hi2, List.getElem_map]
    simp

theorem scrape_index_fidelity_witness :
    (∀ c, (demoReqFunc c).length = (demoReqFunc 0).length) ∧
      ((scrape demoOracle demoReqFunc 1).length = (demoReqFunc 0).length ∧
        ∀ i, i < (demoReqFunc 0).length →
          (scrape demoOracle demoReqFunc 1).getD i none = resolve demoOracle 1 i) :=
  ⟨fun _ => rfl, scrape_index_fidelity demoOracle demoReqFunc 1 (fun _ => rfl)⟩

/-- C2: for every retry budget and failure pattern the pass counter never
exceeds `num_retry + 1`, and the loop has terminated by then: iterating the
guarded loop step beyond `num_retry + 1` times changes nothing (the guard
`num_passes <= num_retry` is already false). -/
theorem retry_loop_bounded {ρ α : Type} [Inhabited ρ] (o : ℕ → ℕ → Option α)
    (r : ℕ → List ρ) (nr : ℕ) :
    (∀ k, (stateAfter o r nr k).2 ≤ nr + 1) ∧
      (∀ m, stateAfter o r nr (nr + 1 + m) = stateAfter o r nr (nr + 1)) :=
  ⟨fun k => (scrapeInv_all o r nr k).2, fun m => stateAfter_stable o r nr m⟩

/-- C3: at every point of the run (observed between the atomic bookkeeping
blocks of the passes, which contain no suspension point) the completed and
pending index sets are disjoint; at termination their union is a permutation
of the full index range `[0, N)`; and the merged output lists every original
request exactly once, in ascending original-index order. -/
theorem batch_state_invariant {ρ α : Type} [Inhabited ρ] (o : ℕ → ℕ → Option α)
    (r : ℕ → List ρ) (nr : ℕ)
    (hlen : ∀ c, (r c).length = (r 0).length) :
    (∀ k, ((stateAfter o r nr k).1.completedIndices).Disjoint
        ((stateAfter o r nr k).1.pendingIndices)) ∧
      (((stateAfter o r nr (nr + 1)).1.completedIndices ++
          (stateAfter o r nr (nr + 1)).1.pendingIndices).Perm
        (List.range (r 0).length)) ∧
      scrape o r nr = (List.range (r 0).length).map (resolve o nr) := by
  refine ⟨?_, ((scrapeInv_all o r nr (nr + 1)).1).perm, scrape_eq_resolve o r nr⟩
  intro k
  have hperm := ((scrapeInv_all o r nr k).1).perm
  have hnd : ((stateAfter o r nr k).1.completedIndices ++
      (stateAfter o r nr k).1.pendingIndices).Nodup :=
    hperm.symm.nodup (List.nodup_range _)
  exact (List.nodup_append.mp hnd).2.2

theorem batch_state_invariant_witness :
    (∀ c, (demoReqFunc c).length = (demoReqFunc 0).length) ∧
      ((∀ k, ((stateAfter demoOracle demoReqFunc 1 k).1.completedIndices).Disjoint
          ((stateAfter demoOracle demoReqFunc 1 k).1.pendingIndices)) ∧
        (((stateAfter demoOracle demoReqFunc 1 2).1.completedIndices ++
            (stateAfter demoOracle demoReqFunc 1 2).1.pendingIndices).Perm
          (List.range (demoReqFunc 0).length)) ∧
        scrape demoOracle demoReqFunc 1 =
          (List.range (demoReqFunc 0).length).map (resolve demoOracle 1)) :=
  ⟨fun _ => rfl, batch_state_invariant demoOracle demoReqFunc 1 (fun _ => rfl)⟩

end Waffle
